import Mathlib

/-!
Verification of the DNA sequence-variant enumerators of `seqtools.py`.

DNA sequences are modelled as `List Char`.  A Python `set` of sequences is
modelled as the list of the elements in generation order: all properties of
interest are membership properties, for which the list and the set agree.
Python functions that can raise at run time (an `IndexError` from `tup[0]`
on an empty tuple, a failed `assert`) are modelled with `Option`, `none`
standing for the raised exception.
-/

/-- The module constant `bases = 'ACGT'`. -/
def bases : List Char := ['A', 'C', 'G', 'T']

/-- `itertools.combinations(l, r)`: all `r`-element subsequences of `l`,
in Python's generation order. -/
def combinations : Nat → List α → List (List α)
  | 0, _ => [[]]
  | _ + 1, [] => []
  | r + 1, x :: xs =>
    (combinations r xs).map (fun t => x :: t) ++ combinations (r + 1) xs

/-- `itertools.product(l, repeat=k)`: all length-`k` tuples over `l`. -/
def productRepeat (l : List α) : Nat → List (List α)
  | 0 => [[]]
  | k + 1 => l.flatMap (fun c => (productRepeat l k).map (fun t => c :: t))

/-- `itertools.product(*ls)`: one pick from each list of `ls`, in order. -/
def productList : List (List α) → List (List α)
  | [] => [[]]
  | l :: ls => l.flatMap (fun c => (productList ls).map (fun t => c :: t))

/-- Run a fallible per-element builder over a list.  A Python loop that
raises on some element raises for the whole call, hence `none`. -/
def traverseOpt (f : α → Option β) : List α → Option (List β)
  | [] => some []
  | a :: as =>
    match f a, traverseOpt f as with
    | some b, some bs => some (b :: bs)
    | _, _ => none

/-- `dna2num` (seqtools.py line 20):
`sum(bases.index(c) << 2*i for i, c in enumerate(s[::-1]))`. -/
def dna2num (s : List Char) : Nat :=
  (s.reverse.enum.map (fun ic => bases.indexOf ic.2 <<< (2 * ic.1))).sum

/-- `num2dna` (seqtools.py line 29):
`''.join(bases[(n & (3 << i)) >> i] for i in range(2*dnalen-2, -1, -2))`;
the descending range `[2L-2, 2L-4, ..., 0]` is indexed by `k < dnalen`
with `i = 2*dnalen - 2 - 2*k`. -/
def num2dna (n dnalen : Nat) : List Char :=
  (List.range dnalen).map (fun k =>
    bases.getD ((n &&& (3 <<< (2 * dnalen - 2 - 2 * k))) >>> (2 * dnalen - 2 - 2 * k)) 'A')

/-- Pieces of `get_deletion_seqs`'s loop body (seqtools.py lines 52-54):
`seq[i+1:j]` for consecutive tuple entries `i, j`, then `seq[tup[-1]+1:]`. -/
def delChunks (seq : List Char) : List Nat → List Char
  | [] => []
  | [i] => seq.drop (i + 1)
  | i :: j :: rest => (seq.drop (i + 1)).take (j - (i + 1)) ++ delChunks seq (j :: rest)

/-- One iteration of `get_deletion_seqs`'s outer loop (lines 51-54).  The
body first evaluates `seq[:tup[0]]`, which raises `IndexError` when the
tuple is empty (the `ndel = 0` case), hence `none`. -/
def delBuild (seq : List Char) : List Nat → Option (List Char)
  | [] => none
  | t0 :: rest => some (seq.take t0 ++ delChunks seq (t0 :: rest))

/-- `get_deletion_seqs` (lines 47-57). -/
def get_deletion_seqs (seq : List Char) (ndel : Nat) : Option (List (List Char)) :=
  traverseOpt (delBuild seq) (combinations ndel (List.range seq.length))

/-- `get_contiguous_insertion_seqs` (lines 60-67): for every insertion point
`i` in Python's `range(1, len(seq) + 1)` and every block over the alphabet,
`seq[:i] + insertion + seq[i:]`.  The length assert of line 66 always holds
(proved below), so no `Option` is needed. -/
def get_contiguous_insertion_seqs (seq : List Char) (len_ins : Nat) : List (List Char) :=
  (List.range' 1 seq.length).flatMap (fun i =>
    (productRepeat bases len_ins).map (fun insertion => seq.take i ++ insertion ++ seq.drop i))

/-- Pieces of `get_insertion_seqs`'s inner loop body (lines 77-79):
`ins_bases[k] + seq[i:j]` for consecutive slots, then `ins_bases[-1] + seq[tup[-1]:]`. -/
def insChunks (seq : List Char) : List Nat → List Char → List Char
  | [i], b :: _ => b :: seq.drop i
  | i :: j :: rest, b :: bs => (b :: (seq.drop i).take (j - i)) ++ insChunks seq (j :: rest) bs
  | _, _ => []

/-- One iteration of `get_insertion_seqs`'s inner loop (lines 75-79): the
`assert len(ins_bases) == len(tup)` of line 75, then `seq[:tup[0]]`, which
raises `IndexError` on an empty tuple (the `nins = 0` case). -/
def insBuild (seq : List Char) (tup : List Nat) (ins : List Char) : Option (List Char) :=
  if ins.length = tup.length then
    match tup with
    | [] => none
    | t0 :: _ => some (seq.take t0 ++ insChunks seq tup ins)
  else none

/-- `get_insertion_seqs` (lines 70-82): slots drawn from
`range(1, len(seq) + 1)`, bases from `product(bases, repeat=nins)`. -/
def get_insertion_seqs (seq : List Char) (nins : Nat) : Option (List (List Char)) :=
  (traverseOpt (fun tup => traverseOpt (insBuild seq tup) (productRepeat bases nins))
    (combinations nins (List.range' 1 seq.length))).map List.flatten

/-- Pieces of `get_mismatch_seqs`'s inner loop body (lines 92-94):
`c + seq[tup[k]+1:tup[k+1]]` for consecutive positions, then
`mm_bases[-1] + seq[tup[-1]+1:]`. -/
def mmChunks (seq : List Char) : List Nat → List Char → List Char
  | [i], c :: _ => c :: seq.drop (i + 1)
  | i :: j :: rest, c :: cs =>
    (c :: (seq.drop (i + 1)).take (j - (i + 1))) ++ mmChunks seq (j :: rest) cs
  | _, _ => []

/-- One iteration of `get_mismatch_seqs`'s inner loop (lines 91-94):
`seq[:tup[0]]` raises `IndexError` on an empty tuple (the `num_mm = 0`
case), and `mm_bases[-1]` on an empty base choice. -/
def mmBuild (seq : List Char) (tup : List Nat) (mm : List Char) : Option (List Char) :=
  match tup, mm with
  | t0 :: _, _ :: _ => some (seq.take t0 ++ mmChunks seq tup mm)
  | _, _ => none

/-- `get_mismatch_seqs` (lines 85-97).  `bases.replace(seq[i], '')` removes
every occurrence of the character `seq[i]` from `'ACGT'`; the indices in
`tup` come from `range(len(seq))`, so `seq.getD i 'A'` is the in-range
`seq[i]`. -/
def get_mismatch_seqs (seq : List Char) (num_mm : Nat) : Option (List (List Char)) :=
  (traverseOpt (fun tup =>
      traverseOpt (mmBuild seq tup)
        (productList (tup.map (fun i => bases.filter (fun b => b != seq.getD i 'A')))))
    (combinations num_mm (List.range seq.length))).map List.flatten

/-- The `complements` dict (line 100) as a function.  `seqtools.py` raises
`KeyError` outside {A,C,G,T}; no claim exercises that case, so other
characters are returned unchanged here. -/
def complementChar (c : Char) : Char :=
  if c = 'A' then 'T'
  else if c = 'T' then 'A'
  else if c = 'C' then 'G'
  else if c = 'G' then 'C'
  else c

/-- `forward_complement` (lines 102-103). -/
def forward_complement (seq : List Char) : List Char :=
  seq.map complementChar

/-- The window replacement of `get_stretch_of_complement_seqs` (line 117):
`seq[:i] + forward_complement(seq[i:i+num_bases]) + seq[i+num_bases:]`. -/
def stretchComplementAt (seq : List Char) (i num_bases : Nat) : List Char :=
  seq.take i ++ forward_complement ((seq.drop i).take num_bases) ++ seq.drop (i + num_bases)

/-- The `end` argument of `get_randomized_pam_seqs`: `'5p'` or `'3p'`
(any other value fails the line-137 assert, unrepresentable here). -/
inductive SeqEnd
  | fivePrime
  | threePrime
deriving DecidableEq

/-- Python `seq[:-k]` for a `Nat` `k`: for `k = 0` this is `seq[:0] = []`. -/
def sliceToNeg (seq : List Char) (k : Nat) : List Char :=
  if k = 0 then [] else seq.take (seq.length - k)

/-- `get_randomized_pam_seqs` (lines 130-138), with the line-132
`assert num_randomized_bases >= num_pam_bases` modelled as `none`. -/
def get_randomized_pam_seqs (seq : List Char) (num_pam_bases num_randomized_bases : Nat)
    (e : SeqEnd) : Option (List (List Char)) :=
  if num_pam_bases ≤ num_randomized_bases then
    some (match e with
      | SeqEnd.fivePrime =>
        (productRepeat bases num_randomized_bases).map
          (fun rand_seq => rand_seq ++ seq.drop num_pam_bases)
      | SeqEnd.threePrime =>
        (productRepeat bases num_randomized_bases).map
          (fun rand_seq => sliceToNeg seq num_pam_bases ++ rand_seq))
  else none

/-- `get_randomized_region_seqs` (lines 141-145), with the line-143
`assert start < end` modelled as `none` (`stop` stands for Python's `end`). -/
def get_randomized_region_seqs (seq : List Char) (start stop : Nat) :
    Option (List (List Char)) :=
  if start < stop then
    some ((productRepeat bases (stop - start)).map
      (fun rand_seq => seq.take start ++ rand_seq ++ seq.drop stop))
  else none

/-- `get_mismatches_in_region` (lines 148-150); `seq[start:end]` is
`(seq.drop start).take (stop - start)`. -/
def get_mismatches_in_region (seq : List Char) (start stop num_mm : Nat) :
    Option (List (List Char)) :=
  (get_mismatch_seqs ((seq.drop start).take (stop - start)) num_mm).map
    (fun ms => ms.map (fun mm_seq => seq.take start ++ mm_seq ++ seq.drop stop))

/-- Count of positions where two equal-length sequences differ (used to
state C10's "differs in exactly n positions"). -/
def diffCount : List Char → List Char → Nat
  | a :: as, b :: bs => (if a = b then 0 else 1) + diffCount as bs
  | _, _ => 0

/-- Count of positions where two sequences agree (used to state C5's
"agrees with seq on at least ceil(len/3) positions"). -/
def agreeCount : List Char → List Char → Nat
  | a :: as, b :: bs => (if a = b then 1 else 0) + agreeCount as bs
  | _, _ => 0

/-- One bundle complementation (line 191):
`newseq[:start] + forward_complement(newseq[start:end]) + newseq[end:]`. -/
def bundleComplement (seq : List Char) (start stop : Nat) : List Char :=
  seq.take start ++ forward_complement ((seq.drop start).take (stop - start)) ++ seq.drop stop

/-- Python `range(0, stop, step)`: `ceil(stop/step)` values `0, step, ...`. -/
def rangeStep (stop step : Nat) : List Nat :=
  (List.range ((stop + step - 1) / step)).map (fun k => k * step)

/-- The bundle tiling of `get_complementary_bundle_sets` (lines 175-182):
one whole-sequence bundle when `bundle_len * 2 > len(seq)`, otherwise
bundles `(start, start + bundle_len)` for
`start in range(0, len - len % bundle_len - bundle_len, bundle_len)` plus a
last bundle extended to the end of the sequence. -/
def bundlesFor (n bundle_len : Nat) : List (Nat × Nat) :=
  if n < bundle_len * 2 then [(0, n)]
  else
    (rangeStep (n - n % bundle_len - bundle_len) bundle_len).map
      (fun start => (start, start + bundle_len)) ++
    [(n - n % bundle_len - bundle_len, n)]

/-- One selection of bundles (lines 186-193): the selection is skipped
(`none`) when the un-complemented remainder `len - sum(end - start)` is at
most a third of the sequence; Python compares the integer remainder against
the float `len(seq)/3.0`, which at these magnitudes is exactly the integer
test `3 * (len - sum) <= len` over ℤ.  Otherwise each selected bundle span
of `newseq` is complemented in turn. -/
def bundleSelectionResult (seq : List Char) (sel : List (Nat × Nat)) : Option (List Char) :=
  if 3 * ((seq.length : Int) - (sel.map (fun p => (p.2 : Int) - (p.1 : Int))).sum) ≤
      (seq.length : Int) then
    none
  else
    some (sel.foldl (fun cur p => bundleComplement cur p.1 p.2) seq)

/-- `get_complementary_bundle_sets` (lines 153-194): bundle lengths
`range(3, 11, 2) = [3, 5, 7, 9]`, selections of `num_bundles in range(2, 4)`
bundles, skipped selections dropped. -/
def get_complementary_bundle_sets (seq : List Char) : List (List Char) :=
  ([3, 5, 7, 9] : List Nat).flatMap (fun bundle_len =>
    ([2, 3] : List Nat).flatMap (fun num_bundles =>
      (combinations num_bundles (bundlesFor seq.length bundle_len)).filterMap
        (fun sel => bundleSelectionResult seq sel)))

/-- The result set that claim C4 asserts for `ContiguousInsertion`,
following the claim's words: splice points `i ∈ [0, len]` (including 0) and
every block of length `insLen` over the alphabet. -/
def specContiguousInsertion (seq : List Char) (insLen : Nat) (x : List Char) : Prop :=
  ∃ i ≤ seq.length, ∃ block : List Char, block.length = insLen ∧
    (∀ c ∈ block, c ∈ bases) ∧ x = seq.take i ++ block ++ seq.drop i


theorem dna2num_nil : dna2num [] = 0 := rfl

theorem dna2num_cons (c : Char) (t : List Char) :
    dna2num (c :: t) = bases.indexOf c * 4 ^ t.length + dna2num t := by
  unfold dna2num
  rw [List.reverse_cons, List.enum_eq_zip_range, List.enum_eq_zip_range]
  have hlen : (t.reverse ++ [c]).length = t.reverse.length + 1 := by simp
  rw [hlen, List.length_reverse, List.range_succ,
    List.zip_append (by simp), List.map_append, List.sum_append]
  simp [Nat.shiftLeft_eq, pow_mul]
  ring

theorem indexOf_lt_four {c : Char} (h : c ∈ bases) : bases.indexOf c < 4 := by
  fin_cases h <;> decide

theorem dna2num_lt {s : List Char} (h : ∀ c ∈ s, c ∈ bases) :
    dna2num s < 4 ^ s.length := by
  induction s with
  | nil => simp [dna2num_nil]
  | cons c t ih =>
    have hc : bases.indexOf c < 4 := indexOf_lt_four (h c (by simp))
    have ht : dna2num t < 4 ^ t.length := ih (fun x hx => h x (by simp [hx]))
    have : bases.indexOf c * 4 ^ t.length + dna2num t <
        (bases.indexOf c + 1) * 4 ^ t.length := by
      have := Nat.pos_pow_of_pos t.length (show 0 < 4 by decide)
      nlinarith
    calc dna2num (c :: t) = bases.indexOf c * 4 ^ t.length + dna2num t :=
          dna2num_cons c t
      _ < (bases.indexOf c + 1) * 4 ^ t.length := this
      _ ≤ 4 * 4 ^ t.length := by
          have : bases.indexOf c + 1 ≤ 4 := hc
          exact Nat.mul_le_mul_right _ this
      _ = 4 ^ (c :: t).length := by rw [List.length_cons]; ring

theorem num2dna_succ (n L : Nat) :
    num2dna n (L + 1) =
      bases.getD ((n &&& (3 <<< (2 * L))) >>> (2 * L)) 'A' :: num2dna n L := by
  unfold num2dna
  rw [List.range_succ_eq_map, List.map_cons, List.map_map]
  refine congrArg₂ List.cons ?_ (List.map_congr_left ?_)
  · have h0 : 2 * (L + 1) - 2 - 2 * 0 = 2 * L := by omega
    rw [h0]
  · intro k _
    have h : 2 * (L + 1) - 2 - 2 * (k + 1) = 2 * L - 2 - 2 * k := by omega
    simp only [Function.comp_apply, Nat.succ_eq_add_one, h]

theorem and_three_shiftRight (a k : Nat) :
    (a &&& (3 <<< k)) >>> k = (a >>> k) &&& 3 := by
  apply Nat.eq_of_testBit_eq
  intro i
  rw [Nat.testBit_shiftRight, Nat.testBit_and, Nat.testBit_and,
    Nat.testBit_shiftRight, Nat.testBit_shiftLeft]
  have h2 : k + i - k = i := by omega
  simp [h2, Nat.le_add_right]

theorem and_three_eq_mod (a : Nat) : a &&& 3 = a % 4 := by
  have h3 : (3 : Nat) = 2 ^ 2 - 1 := rfl
  rw [h3, Nat.and_pow_two_sub_one_eq_mod]

theorem num2dna_length (n L : Nat) : (num2dna n L).length = L := by
  unfold num2dna
  rw [List.length_map, List.length_range]

theorem getD_indexOf {c : Char} (h : c ∈ bases) :
    bases.getD (bases.indexOf c) 'A' = c := by
  fin_cases h <;> rfl

theorem indexOf_getD : ∀ j : Nat, j < 4 → bases.indexOf (bases.getD j 'A') = j := by
  decide

theorem num2dna_high (d r L : Nat) : num2dna (d * 4 ^ L + r) L = num2dna r L := by
  unfold num2dna
  apply List.map_congr_left
  intro k hk
  have hkL : k < L := List.mem_range.mp hk
  set i := 2 * L - 2 - 2 * k with hidef
  have e1 : (d * 4 ^ L + r &&& 3 <<< i) >>> i = (d * 4 ^ L + r) / 2 ^ i % 4 := by
    rw [and_three_shiftRight, Nat.shiftRight_eq_div_pow, and_three_eq_mod]
  have e2 : (r &&& 3 <<< i) >>> i = r / 2 ^ i % 4 := by
    rw [and_three_shiftRight, Nat.shiftRight_eq_div_pow, and_three_eq_mod]
  rw [e1, e2]
  have h4 : (4 : Nat) ^ L = 2 ^ i * 2 ^ (2 * L - i) := by
    rw [← pow_add]
    have hsum : i + (2 * L - i) = 2 * L := by omega
    rw [hsum, pow_mul]
    norm_num
  have e3 : (d * 4 ^ L + r) / 2 ^ i % 4 = r / 2 ^ i % 4 := by
    rw [h4]
    have hre : d * (2 ^ i * 2 ^ (2 * L - i)) + r = r + d * 2 ^ (2 * L - i) * 2 ^ i := by
      ring
    rw [hre, Nat.add_mul_div_right _ _ (Nat.pos_pow_of_pos i (by decide))]
    have h2L : (2 : Nat) ^ (2 * L - i) = 2 ^ (2 * L - i - 2) * 4 := by
      have hs : 2 * L - i = (2 * L - i - 2) + 2 := by omega
      rw [hs, pow_add]
      norm_num
    rw [h2L]
    have hre2 : r / 2 ^ i + d * (2 ^ (2 * L - i - 2) * 4) =
        r / 2 ^ i + d * 2 ^ (2 * L - i - 2) * 4 := by ring
    rw [hre2, Nat.add_mul_mod_self_right]
  rw [e3]

theorem num2dna_dna2num {s : List Char} (h : ∀ c ∈ s, c ∈ bases) :
    num2dna (dna2num s) s.length = s := by
  induction s with
  | nil => rfl
  | cons c t ih =>
    have hc : c ∈ bases := h c (by simp)
    have ht : ∀ x ∈ t, x ∈ bases := fun x hx => h x (by simp [hx])
    rw [List.length_cons, num2dna_succ]
    have hlt : dna2num t < 4 ^ t.length := dna2num_lt ht
    have hhead : (dna2num (c :: t) &&& 3 <<< (2 * t.length)) >>> (2 * t.length) =
        bases.indexOf c := by
      rw [and_three_shiftRight, Nat.shiftRight_eq_div_pow, and_three_eq_mod,
        dna2num_cons]
      have h4 : (2 : Nat) ^ (2 * t.length) = 4 ^ t.length := by
        rw [pow_mul]; norm_num
      rw [h4]
      have hre : bases.indexOf c * 4 ^ t.length + dna2num t =
          dna2num t + bases.indexOf c * 4 ^ t.length := by ring
      rw [hre, Nat.add_mul_div_right _ _ (Nat.pos_pow_of_pos _ (by decide)),
        Nat.div_eq_of_lt hlt]
      have hidx : bases.indexOf c < 4 := indexOf_lt_four hc
      omega
    rw [hhead, getD_indexOf hc, dna2num_cons, num2dna_high, ih ht]

theorem dna2num_num2dna : ∀ L n : Nat, n < 4 ^ L → dna2num (num2dna n L) = n := by
  intro L
  induction L with
  | zero =>
    intro n hn
    have hn0 : n = 0 := by simpa using hn
    subst hn0
    rfl
  | succ L ih =>
    intro n hn
    have hpos : 0 < 4 ^ L := Nat.pos_pow_of_pos L (by decide)
    have hdiv : n / 4 ^ L < 4 := by
      rw [Nat.div_lt_iff_lt_mul hpos]
      calc n < 4 ^ (L + 1) := hn
        _ = 4 * 4 ^ L := by rw [pow_succ]; ring
    rw [num2dna_succ]
    have hd : (n &&& 3 <<< (2 * L)) >>> (2 * L) = n / 4 ^ L := by
      rw [and_three_shiftRight, Nat.shiftRight_eq_div_pow, and_three_eq_mod]
      have h4 : (2 : Nat) ^ (2 * L) = 4 ^ L := by rw [pow_mul]; norm_num
      rw [h4]
      exact Nat.mod_eq_of_lt hdiv
    have hsplit : n = n / 4 ^ L * 4 ^ L + n % 4 ^ L := by
      rw [mul_comm]
      exact (Nat.div_add_mod n (4 ^ L)).symm
    have hmod : num2dna n L = num2dna (n % 4 ^ L) L := by
      calc num2dna n L = num2dna (n / 4 ^ L * 4 ^ L + n % 4 ^ L) L := by
            rw [← hsplit]
        _ = num2dna (n % 4 ^ L) L := num2dna_high _ _ _
    rw [hd, dna2num_cons, num2dna_length, indexOf_getD _ hdiv, hmod,
      ih _ (Nat.mod_lt n hpos)]
    exact hsplit.symm

/-- C9: `dna2num` and `num2dna` are mutually inverse base-4 encodings: for
every string over {A,C,G,T}, `num2dna (dna2num s) (len s) = s`, and for every
length `L ≥ 1` and every `n < 4 ^ L`, `dna2num (num2dna n L) = n`. -/
theorem claim_C9_dna2num_num2dna_roundtrip :
    (∀ s : List Char, (∀ c ∈ s, c ∈ bases) → num2dna (dna2num s) s.length = s) ∧
    (∀ L n : Nat, 1 ≤ L → n < 4 ^ L → dna2num (num2dna n L) = n) :=
  ⟨fun _ h => num2dna_dna2num h, fun L n _ hn => dna2num_num2dna L n hn⟩

theorem claim_C9_witness :
    num2dna (dna2num ['G', 'A', 'T']) 3 = ['G', 'A', 'T'] ∧
      dna2num (num2dna 11 2) = 11 :=
  ⟨claim_C9_dna2num_num2dna_roundtrip.1 ['G', 'A', 'T'] (by decide),
   claim_C9_dna2num_num2dna_roundtrip.2 2 11 (by decide) (by decide)⟩

/-- C1: for an edit count of zero the code does NOT return `{seq}`: each of
the three enumerators iterates over the single empty tuple and evaluates
`seq[:tup[0]]`, raising `IndexError` (modelled as `none`). -/
theorem combinations_zero (l : List α) : combinations 0 l = [[]] := by
  cases l <;> rfl

theorem claim_C1_zero_count_raises (seq : List Char) :
    get_deletion_seqs seq 0 = none ∧ get_insertion_seqs seq 0 = none ∧
      get_mismatch_seqs seq 0 = none := by
  refine ⟨?_, ?_, ?_⟩
  · unfold get_deletion_seqs
    rw [combinations_zero]
    rfl
  · unfold get_insertion_seqs
    rw [combinations_zero]
    rfl
  · unfold get_mismatch_seqs
    rw [combinations_zero]
    rfl

/-- C8: the precondition asserts fire: `get_randomized_region_seqs` with
`start ≥ end` and `get_randomized_pam_seqs` with `randLen < pamLen` raise
(`none`) rather than returning a result set. -/
theorem claim_C8_precondition_asserts :
    (∀ (seq : List Char) (start stop : Nat), stop ≤ start →
      get_randomized_region_seqs seq start stop = none) ∧
    (∀ (seq : List Char) (p r : Nat) (e : SeqEnd), r < p →
      get_randomized_pam_seqs seq p r e = none) := by
  constructor
  · intro seq start stop h
    unfold get_randomized_region_seqs
    rw [if_neg (by omega)]
  · intro seq p r e h
    unfold get_randomized_pam_seqs
    rw [if_neg (by omega)]

theorem claim_C8_witness :
    get_randomized_region_seqs ['A', 'C', 'G', 'T'] 2 2 = none ∧
      get_randomized_pam_seqs ['A', 'C', 'G', 'T'] 3 2 SeqEnd.fivePrime = none :=
  ⟨claim_C8_precondition_asserts.1 ['A', 'C', 'G', 'T'] 2 2 (by decide),
   claim_C8_precondition_asserts.2 ['A', 'C', 'G', 'T'] 3 2 SeqEnd.fivePrime (by decide)⟩

/-- C3 counterexample: `Insertions("AC", 1)` contains `"AGC"` (insertion of
`G` at slot 1), which is not in the claimed 8-element set
{AAC, CAC, GAC, TAC, ACA, ACC, ACG, ACT}; so the claimed equality fails. -/
theorem claim_C3_counterexample :
    ['A', 'G', 'C'] ∈ (get_insertion_seqs ['A', 'C'] 1).getD [] ∧
      ['A', 'G', 'C'] ∉
        ([['A', 'A', 'C'], ['C', 'A', 'C'], ['G', 'A', 'C'], ['T', 'A', 'C'],
          ['A', 'C', 'A'], ['A', 'C', 'C'], ['A', 'C', 'G'], ['A', 'C', 'T']] :
          List (List Char)) := by
  decide

/-- C3 amended: with insertion slots ranging over [1, len] (no insertion
before index 0), `Insertions("AC", 1)` deduplicates to the 7-element set
{AAC, ACC, AGC, ATC, ACA, ACG, ACT}: the call succeeds and its output list
and that set contain exactly the same sequences. -/
theorem claim_C3_insertions_AC_1 :
    (get_insertion_seqs ['A', 'C'] 1).isSome = true ∧
      ((get_insertion_seqs ['A', 'C'] 1).getD []).all
        (fun x => ([['A', 'A', 'C'], ['A', 'C', 'C'], ['A', 'G', 'C'], ['A', 'T', 'C'],
          ['A', 'C', 'A'], ['A', 'C', 'G'], ['A', 'C', 'T']] : List (List Char)).contains x)
        = true ∧
      (([['A', 'A', 'C'], ['A', 'C', 'C'], ['A', 'G', 'C'], ['A', 'T', 'C'],
          ['A', 'C', 'A'], ['A', 'C', 'G'], ['A', 'C', 'T']] : List (List Char)).all
        (fun x => ((get_insertion_seqs ['A', 'C'] 1).getD []).contains x)) = true := by
  decide

theorem complementChar_involutive {c : Char} (h : c ∈ bases) :
    complementChar (complementChar c) = c := by
  fin_cases h <;> rfl

theorem forward_complement_involutive {s : List Char} (h : ∀ c ∈ s, c ∈ bases) :
    forward_complement (forward_complement s) = s := by
  unfold forward_complement
  rw [List.map_map]
  have hid : s.map (complementChar ∘ complementChar) = s.map id :=
    List.map_congr_left (fun a ha => complementChar_involutive (h a ha))
  rw [hid, List.map_id]

theorem forward_complement_length (s : List Char) :
    (forward_complement s).length = s.length := by
  unfold forward_complement
  rw [List.length_map]

/-- C7: `forward_complement` is an involution on {A,C,G,T} strings, and
replacing the window `[i, i+w)` with its forward complement twice (the
line-117 window operation of `get_stretch_of_complement_seqs`) restores the
original sequence. -/
theorem claim_C7_complement_involution :
    (∀ s : List Char, (∀ c ∈ s, c ∈ bases) →
      forward_complement (forward_complement s) = s) ∧
    (∀ (s : List Char) (i w : Nat), 1 ≤ w → i + w ≤ s.length →
      (∀ c ∈ s, c ∈ bases) →
      stretchComplementAt (stretchComplementAt s i w) i w = s) := by
  constructor
  · intro s h
    exact forward_complement_involutive h
  · intro s i w _ hiw hb
    have hAi : (s.take i).length = i := by
      rw [List.length_take]; omega
    have hfcM : (forward_complement ((s.drop i).take w)).length = w := by
      rw [forward_complement_length, List.length_take, List.length_drop]; omega
    have hY : stretchComplementAt s i w
        = s.take i ++ (forward_complement ((s.drop i).take w) ++ s.drop (i + w)) := by
      unfold stretchComplementAt
      rw [List.append_assoc]
    have h1 : (stretchComplementAt s i w).take i = s.take i := by
      rw [hY]; exact List.take_left' hAi
    have h2 : (stretchComplementAt s i w).drop i
        = forward_complement ((s.drop i).take w) ++ s.drop (i + w) := by
      rw [hY]; exact List.drop_left' hAi
    have h3 : ((stretchComplementAt s i w).drop i).take w
        = forward_complement ((s.drop i).take w) := by
      rw [h2]; exact List.take_left' hfcM
    have h4 : (stretchComplementAt s i w).drop (i + w) = s.drop (i + w) := by
      unfold stretchComplementAt
      apply List.drop_left'
      rw [List.length_append, hAi, hfcM]
    have h5 : forward_complement (forward_complement ((s.drop i).take w)) = (s.drop i).take w := by
      apply forward_complement_involutive
      intro c hc
      exact hb c (List.mem_of_mem_drop (List.mem_of_mem_take hc))
    have h6 : (s.drop i).drop w = s.drop (i + w) := by
      rw [List.drop_drop, Nat.add_comm]
    calc stretchComplementAt (stretchComplementAt s i w) i w
        = (stretchComplementAt s i w).take i
            ++ forward_complement (((stretchComplementAt s i w).drop i).take w)
            ++ (stretchComplementAt s i w).drop (i + w) := rfl
      _ = s.take i ++ forward_complement (forward_complement ((s.drop i).take w))
            ++ s.drop (i + w) := by rw [h1, h3, h4]
      _ = s.take i ++ (s.drop i).take w ++ s.drop (i + w) := by rw [h5]
      _ = s := by
          rw [List.append_assoc, ← h6, List.take_append_drop, List.take_append_drop]

theorem claim_C7_witness :
    forward_complement (forward_complement ['A', 'C', 'G', 'T']) = ['A', 'C', 'G', 'T'] ∧
      stretchComplementAt (stretchComplementAt ['A', 'C', 'G', 'T'] 1 2) 1 2
        = ['A', 'C', 'G', 'T'] :=
  ⟨claim_C7_complement_involution.1 ['A', 'C', 'G', 'T'] (by decide),
   claim_C7_complement_involution.2 ['A', 'C', 'G', 'T'] 1 2 (by decide) (by decide) (by decide)⟩

theorem mem_productRepeat {l : List α} : ∀ {k : Nat} {x : List α},
    x ∈ productRepeat l k ↔ x.length = k ∧ ∀ c ∈ x, c ∈ l := by
  intro k
  induction k with
  | zero =>
    intro x
    constructor
    · intro hx
      have hx' : x = [] := by simpa [productRepeat] using hx
      subst hx'
      exact ⟨rfl, by intro c hc; cases hc⟩
    · rintro ⟨hlen, _⟩
      have hx' : x = [] := List.length_eq_zero.mp hlen
      subst hx'
      simp [productRepeat]
  | succ k ih =>
    intro x
    simp only [productRepeat, List.mem_flatMap, List.mem_map]
    constructor
    · rintro ⟨c, hc, t, ht, rfl⟩
      obtain ⟨hlen, hmem⟩ := ih.mp ht
      refine ⟨by simp [hlen], ?_⟩
      intro a ha
      rcases List.mem_cons.mp ha with rfl | h
      · exact hc
      · exact hmem a h
    · rintro ⟨hlen, hmem⟩
      cases x with
      | nil => simp at hlen
      | cons c t =>
        exact ⟨c, hmem c (by simp), t,
          ih.mpr ⟨by simpa using hlen, fun a ha => hmem a (by simp [ha])⟩, rfl⟩

/-- C2 counterexample: for seq = "ACGT", pamLen = 1, randLen = 2 at the 5'
end, the code produces "AACGT" (length 5), because it drops only `pamLen`
leading bases (`rand_seq + seq[num_pam_bases:]`), not `randLen`; the
claimed output length `len(seq) = 4` is violated. -/
theorem claim_C2_counterexample :
    ['A', 'A', 'C', 'G', 'T'] ∈
        (get_randomized_pam_seqs ['A', 'C', 'G', 'T'] 1 2 SeqEnd.fivePrime).getD [] ∧
      (['A', 'A', 'C', 'G', 'T'] : List Char).length ≠
        (['A', 'C', 'G', 'T'] : List Char).length := by
  decide

/-- C2 amended: for `1 ≤ pamLen ≤ randLen ≤ len(seq)`,
`RandomizedPAM(seq, pamLen, randLen, '5p')` equals
`{ r ++ seq[pamLen:] | r over all 4^randLen strings of length randLen }` and
`RandomizedPAM(seq, pamLen, randLen, '3p')` equals
`{ seq[:len(seq)-pamLen] ++ r | same r }` (so outputs have length
`len(seq) + randLen - pamLen`, which is `len(seq)` only when
`randLen = pamLen`). -/
theorem claim_C2_randomized_pam_sets (seq : List Char) (pam rand : Nat)
    (h1 : 1 ≤ pam) (h2 : pam ≤ rand) (h3 : rand ≤ seq.length) :
    (get_randomized_pam_seqs seq pam rand SeqEnd.fivePrime).isSome = true ∧
    (get_randomized_pam_seqs seq pam rand SeqEnd.threePrime).isSome = true ∧
    ∀ x : List Char,
      (x ∈ (get_randomized_pam_seqs seq pam rand SeqEnd.fivePrime).getD [] ↔
        ∃ r : List Char, r.length = rand ∧ (∀ c ∈ r, c ∈ bases) ∧
          x = r ++ seq.drop pam) ∧
      (x ∈ (get_randomized_pam_seqs seq pam rand SeqEnd.threePrime).getD [] ↔
        ∃ r : List Char, r.length = rand ∧ (∀ c ∈ r, c ∈ bases) ∧
          x = seq.take (seq.length - pam) ++ r) := by
  have hslice : sliceToNeg seq pam = seq.take (seq.length - pam) := by
    unfold sliceToNeg
    rw [if_neg (by omega)]
  have hmem : ∀ (f : List Char → List Char) (x : List Char),
      (x ∈ (productRepeat bases rand).map f ↔
        ∃ r : List Char, r.length = rand ∧ (∀ c ∈ r, c ∈ bases) ∧ x = f r) := by
    intro f x
    rw [List.mem_map]
    constructor
    · rintro ⟨r, hr, rfl⟩
      obtain ⟨h4, h5⟩ := mem_productRepeat.mp hr
      exact ⟨r, h4, h5, rfl⟩
    · rintro ⟨r, h4, h5, rfl⟩
      exact ⟨r, mem_productRepeat.mpr ⟨h4, h5⟩, rfl⟩
  unfold get_randomized_pam_seqs
  simp only [if_pos h2]
  refine ⟨rfl, rfl, ?_⟩
  intro x
  constructor
  · exact hmem (fun r => r ++ seq.drop pam) x
  · rw [hslice] at *
    exact hmem (fun r => seq.take (seq.length - pam) ++ r) x

theorem claim_C2_witness :
    ['T', 'T', 'C', 'G', 'T'] ∈
      (get_randomized_pam_seqs ['A', 'C', 'G', 'T'] 1 2 SeqEnd.fivePrime).getD [] :=
  ((claim_C2_randomized_pam_sets ['A', 'C', 'G', 'T'] 1 2 (by decide) (by decide)
      (by decide)).2.2 ['T', 'T', 'C', 'G', 'T']).1.mpr
    ⟨['T', 'T'], by decide, by decide, rfl⟩

/-- C4 counterexample: "CAC" is in the claimed set for
`ContiguousInsertion("AC", 1)` (block "C" spliced at point 0) but the code
never inserts before index 0 (`range(1, len+1)`), so "CAC" is not in its
output. -/
theorem claim_C4_counterexample :
    specContiguousInsertion ['A', 'C'] 1 ['C', 'A', 'C'] ∧
      ['C', 'A', 'C'] ∉ get_contiguous_insertion_seqs ['A', 'C'] 1 :=
  ⟨⟨0, by decide, ['C'], rfl, by decide, rfl⟩, by decide⟩

/-- C4 amended: `ContiguousInsertion(seq, insLen)` equals
`{ seq[:i] ++ block ++ seq[i:] | i in [1, len(seq)], block any string of
length insLen over the alphabet }`: the insertion point ranges over
`[1, len]`, not `[0, len]`, so `block ++ seq` (splice at 0) is not in
general a member. -/
theorem claim_C4_contiguous_insertion (seq : List Char) (len_ins : Nat)
    (h : 1 ≤ len_ins) :
    ∀ x : List Char, x ∈ get_contiguous_insertion_seqs seq len_ins ↔
      ∃ i, 1 ≤ i ∧ i ≤ seq.length ∧ ∃ block : List Char,
        block.length = len_ins ∧ (∀ c ∈ block, c ∈ bases) ∧
          x = seq.take i ++ block ++ seq.drop i := by
  intro x
  unfold get_contiguous_insertion_seqs
  rw [List.mem_flatMap]
  constructor
  · rintro ⟨i, hi, hx⟩
    rw [List.mem_range'_1] at hi
    rw [List.mem_map] at hx
    obtain ⟨blk, hblk, rfl⟩ := hx
    obtain ⟨hl, hm⟩ := mem_productRepeat.mp hblk
    exact ⟨i, hi.1, by omega, blk, hl, hm, rfl⟩
  · rintro ⟨i, hi1, hi2, blk, hl, hm, rfl⟩
    refine ⟨i, ?_, ?_⟩
    · rw [List.mem_range'_1]; omega
    · rw [List.mem_map]
      exact ⟨blk, mem_productRepeat.mpr ⟨hl, hm⟩, rfl⟩

theorem claim_C4_witness :
    ['A', 'G', 'C'] ∈ get_contiguous_insertion_seqs ['A', 'C'] 1 :=
  (claim_C4_contiguous_insertion ['A', 'C'] 1 (by decide) ['A', 'G', 'C']).mpr
    ⟨1, by decide, by decide, ['G'], rfl, by decide, rfl⟩

theorem diffCount_self (s : List Char) : diffCount s s = 0 := by
  induction s with
  | nil => rfl
  | cons a as ih => simp [diffCount, ih]

theorem diffCount_append_left (u v w : List Char) :
    diffCount (u ++ v) (u ++ w) = diffCount v w := by
  induction u with
  | nil => rfl
  | cons a as ih => simp [diffCount, ih]

theorem mem_combinations {r : Nat} {l t : List α} (h : t ∈ combinations r l) :
    t.Sublist l ∧ t.length = r := by
  induction l generalizing r t with
  | nil =>
    cases r with
    | zero =>
      rw [combinations_zero] at h
      simp at h
      subst h
      exact ⟨List.Sublist.refl _, rfl⟩
    | succ r => simp [combinations] at h
  | cons x xs ih =>
    cases r with
    | zero =>
      rw [combinations_zero] at h
      simp at h
      subst h
      exact ⟨List.nil_sublist _, rfl⟩
    | succ r =>
      rw [show combinations (r + 1) (x :: xs)
          = (combinations r xs).map (fun t => x :: t) ++ combinations (r + 1) xs from rfl] at h
      rcases List.mem_append.mp h with h1 | h2
      · obtain ⟨t', ht', rfl⟩ := List.mem_map.mp h1
        obtain ⟨hs, hl⟩ := ih ht'
        exact ⟨List.cons_sublist_cons.mpr hs, by simp [hl]⟩
      · obtain ⟨hs, hl⟩ := ih h2
        exact ⟨List.Sublist.cons x hs, hl⟩

theorem traverseOpt_isSome {f : α → Option β} {l : List α}
    (h : ∀ a ∈ l, (f a).isSome = true) : (traverseOpt f l).isSome = true := by
  induction l with
  | nil => rfl
  | cons a as ih =>
    have ha := h a (by simp)
    have has := ih (fun x hx => h x (by simp [hx]))
    obtain ⟨b, hb⟩ := Option.isSome_iff_exists.mp ha
    obtain ⟨bs, hbs⟩ := Option.isSome_iff_exists.mp has
    rw [traverseOpt, hb, hbs]
    rfl

theorem traverseOpt_mem {f : α → Option β} : ∀ {l : List α} {bs : List β},
    traverseOpt f l = some bs → ∀ b ∈ bs, ∃ a ∈ l, f a = some b := by
  intro l
  induction l with
  | nil =>
    intro bs h b hb
    rw [traverseOpt] at h
    simp at h
    subst h
    cases hb
  | cons a as ih =>
    intro bs h b hb
    rw [traverseOpt] at h
    rcases hfa : f a with _ | b0 <;> rcases hta : traverseOpt f as with _ | bs0 <;>
        rw [hfa, hta] at h
    · simp at h
    · simp at h
    · simp at h
    · simp at h
      subst h
      rcases List.mem_cons.mp hb with rfl | hmem
      · exact ⟨a, by simp, hfa⟩
      · obtain ⟨a', ha', hfa'⟩ := ih hta b hmem
        exact ⟨a', by simp [ha'], hfa'⟩

theorem mem_productList {ls : List (List α)} {x : List α} (h : x ∈ productList ls) :
    List.Forall₂ (fun c l => c ∈ l) x ls := by
  induction ls generalizing x with
  | nil =>
    rw [productList] at h
    simp at h
    subst h
    exact List.Forall₂.nil
  | cons l ls ih =>
    rw [productList, List.mem_flatMap] at h
    obtain ⟨c, hc, hx⟩ := h
    obtain ⟨t, ht, rfl⟩ := List.mem_map.mp hx
    exact List.Forall₂.cons hc (ih ht)

theorem mmChunks_spec (seq : List Char) :
    ∀ (rest : List Nat) (t0 : Nat) (mm : List Char),
      List.Pairwise (· < ·) (t0 :: rest) →
      (∀ i ∈ t0 :: rest, i < seq.length) →
      List.Forall₂ (fun c i => c ≠ seq.getD i 'A') mm (t0 :: rest) →
      (mmChunks seq (t0 :: rest) mm).length = seq.length - t0 ∧
        diffCount (seq.drop t0) (mmChunks seq (t0 :: rest) mm) = rest.length + 1 := by
  intro rest
  induction rest with
  | nil =>
    intro t0 mm _ hlt hf
    cases mm with
    | nil => cases hf
    | cons c cs =>
      have hc : c ≠ seq.getD t0 'A' := (List.forall₂_cons.mp hf).1
      have ht0 : t0 < seq.length := hlt t0 (by simp)
      have hgd : seq.getD t0 'A' = seq[t0] := List.getD_eq_getElem seq 'A' ht0
      have hchunks : mmChunks seq [t0] (c :: cs) = c :: seq.drop (t0 + 1) := rfl
      constructor
      · rw [hchunks, List.length_cons, List.length_drop]
        omega
      · rw [hchunks, List.drop_eq_getElem_cons ht0]
        have hne : ¬(seq[t0] = c) := by
          intro heq
          exact hc (by rw [hgd]; exact heq.symm)
        simp [diffCount, if_neg hne, diffCount_self]
  | cons j rest' ih =>
    intro t0 mm hpw hlt hf
    cases mm with
    | nil => cases hf
    | cons c cs =>
      obtain ⟨hc, hf2⟩ := List.forall₂_cons.mp hf
      obtain ⟨hj1, hpw2⟩ := List.pairwise_cons.mp hpw
      have ht0 : t0 < seq.length := hlt t0 (by simp)
      have hj : j < seq.length := hlt j (by simp)
      have ht0j : t0 < j := hj1 j (by simp)
      have hlt2 : ∀ i ∈ j :: rest', i < seq.length := fun i hi => hlt i (by simp [hi])
      obtain ⟨ihlen, ihdiff⟩ := ih j cs hpw2 hlt2 hf2
      have hchunks : mmChunks seq (t0 :: j :: rest') (c :: cs)
          = (c :: (seq.drop (t0 + 1)).take (j - (t0 + 1)))
              ++ mmChunks seq (j :: rest') cs := rfl
      have hgd : seq.getD t0 'A' = seq[t0] := List.getD_eq_getElem seq 'A' ht0
      have hne : ¬(seq[t0] = c) := by
        intro heq
        exact hc (by rw [hgd]; exact heq.symm)
      have hdsplit : seq.drop (t0 + 1)
          = (seq.drop (t0 + 1)).take (j - (t0 + 1)) ++ seq.drop j := by
        conv_lhs => rw [← List.take_append_drop (j - (t0 + 1)) (seq.drop (t0 + 1))]
        congr 1
        rw [List.drop_drop]
        congr 1
        omega
      constructor
      · rw [hchunks, List.length_append, List.length_cons, List.length_take,
          List.length_drop, ihlen]
        have hmin : (j - (t0 + 1)) ⊓ (seq.length - (t0 + 1)) = j - (t0 + 1) :=
          inf_eq_left.mpr (by omega)
        rw [hmin]
        omega
      · rw [hchunks, List.cons_append, List.drop_eq_getElem_cons ht0]
        simp only [diffCount, if_neg hne]
        have hcongr : diffCount (seq.drop (t0 + 1))
              ((seq.drop (t0 + 1)).take (j - (t0 + 1)) ++ mmChunks seq (j :: rest') cs)
            = diffCount ((seq.drop (t0 + 1)).take (j - (t0 + 1)) ++ seq.drop j)
              ((seq.drop (t0 + 1)).take (j - (t0 + 1)) ++ mmChunks seq (j :: rest') cs) :=
          congrArg (fun z => diffCount z
            ((seq.drop (t0 + 1)).take (j - (t0 + 1)) ++ mmChunks seq (j :: rest') cs)) hdsplit
        rw [hcongr, diffCount_append_left, ihdiff]
        simp only [List.length_cons]
        omega

theorem mmBuild_spec {seq : List Char} {tup : List Nat} {mm m : List Char}
    (hpw : List.Pairwise (· < ·) tup)
    (hlt : ∀ i ∈ tup, i < seq.length)
    (hf : List.Forall₂ (fun c i => c ≠ seq.getD i 'A') mm tup)
    (hb : mmBuild seq tup mm = some m) :
    m.length = seq.length ∧ diffCount seq m = tup.length := by
  cases tup with
  | nil => cases mm <;> simp [mmBuild] at hb
  | cons t0 rest =>
    cases mm with
    | nil => cases hf
    | cons c cs =>
      have hb' : m = seq.take t0 ++ mmChunks seq (t0 :: rest) (c :: cs) := by
        simp [mmBuild] at hb
        exact hb.symm
      obtain ⟨hlen, hdiff⟩ := mmChunks_spec seq rest t0 (c :: cs) hpw hlt hf
      have ht0 : t0 < seq.length := hlt t0 (by simp)
      have hA : (seq.take t0).length = t0 := by
        rw [List.length_take]
        exact inf_eq_left.mpr (by omega)
      subst hb'
      constructor
      · rw [List.length_append, hA, hlen]
        omega
      · calc diffCount seq (seq.take t0 ++ mmChunks seq (t0 :: rest) (c :: cs))
            = diffCount (seq.take t0 ++ seq.drop t0)
                (seq.take t0 ++ mmChunks seq (t0 :: rest) (c :: cs)) := by
              rw [List.take_append_drop]
          _ = diffCount (seq.drop t0) (mmChunks seq (t0 :: rest) (c :: cs)) :=
              diffCount_append_left _ _ _
          _ = rest.length + 1 := hdiff
          _ = (t0 :: rest).length := by simp

theorem get_mismatch_seqs_isSome (seq : List Char) {n : Nat} (hn : 1 ≤ n) :
    (get_mismatch_seqs seq n).isSome = true := by
  unfold get_mismatch_seqs
  rw [Option.isSome_map']
  apply traverseOpt_isSome
  intro tup htup
  obtain ⟨_, hlen⟩ := mem_combinations htup
  apply traverseOpt_isSome
  intro mm hmm
  have hf := mem_productList hmm
  rw [List.forall₂_map_right_iff] at hf
  have hmml : mm.length = tup.length := hf.length_eq
  cases tup with
  | nil => simp at hlen; omega
  | cons t0 rest =>
    cases mm with
    | nil => simp at hmml
    | cons c cs => rfl

theorem mem_get_mismatch_seqs {seq : List Char} {n : Nat} {ms : List (List Char)}
    {m : List Char} (h : get_mismatch_seqs seq n = some ms) (hm : m ∈ ms) :
    m.length = seq.length ∧ diffCount seq m = n := by
  unfold get_mismatch_seqs at h
  rw [Option.map_eq_some'] at h
  obtain ⟨mss, hmss, hflat⟩ := h
  subst hflat
  rw [List.mem_flatten] at hm
  obtain ⟨grp, hgrp, hmgrp⟩ := hm
  obtain ⟨tup, htup, hFtup⟩ := traverseOpt_mem hmss grp hgrp
  obtain ⟨mm, hmm, hbuild⟩ := traverseOpt_mem hFtup m hmgrp
  obtain ⟨hsub, hlen⟩ := mem_combinations htup
  have hpw : List.Pairwise (· < ·) tup :=
    List.Pairwise.sublist hsub (List.pairwise_lt_range seq.length)
  have hlt : ∀ i ∈ tup, i < seq.length := fun i hi =>
    List.mem_range.mp (hsub.subset hi)
  have hf := mem_productList hmm
  rw [List.forall₂_map_right_iff] at hf
  have hf2 : List.Forall₂ (fun c i => c ≠ seq.getD i 'A') mm tup := by
    apply hf.imp
    intro c i hci
    exact bne_iff_ne.mp (List.mem_filter.mp hci).2
  obtain ⟨hl, hd⟩ := mmBuild_spec hpw hlt hf2 hbuild
  rw [hlen] at hd
  exact ⟨hl, hd⟩

/-- C10: for `1 ≤ n ≤ len(seq)` every element of `Mismatches(seq, n)` has
length `len(seq)` and differs from `seq` in exactly `n` positions: each of
the `n` distinct chosen positions is substituted with one of the 3 bases
different from the original base there, and all other positions are kept,
so deduplication can only merge outputs with identical difference sets. -/
theorem claim_C10_mismatch_exact_n (seq : List Char) (n : Nat)
    (h1 : 1 ≤ n) (h2 : n ≤ seq.length) (hb : ∀ c ∈ seq, c ∈ bases) :
    (get_mismatch_seqs seq n).isSome = true ∧
      ∀ m ∈ (get_mismatch_seqs seq n).getD [],
        m.length = seq.length ∧ diffCount seq m = n := by
  have hs := get_mismatch_seqs_isSome seq h1
  refine ⟨hs, ?_⟩
  intro m hm
  obtain ⟨ms, hms⟩ := Option.isSome_iff_exists.mp hs
  rw [hms] at hm
  simp only [Option.getD_some] at hm
  exact mem_get_mismatch_seqs hms hm

theorem claim_C10_witness :
    (['T', 'C', 'G'] : List Char).length = (['A', 'C', 'G'] : List Char).length ∧
      diffCount ['A', 'C', 'G'] ['T', 'C', 'G'] = 1 :=
  (claim_C10_mismatch_exact_n ['A', 'C', 'G'] 1 (by decide) (by decide) (by decide)).2
    ['T', 'C', 'G'] (by decide)

/-- C6: for `0 ≤ start < end ≤ len(seq)` and `1 ≤ n ≤ end - start`,
`MismatchesInRegion(seq, start, end, n)` succeeds; every element agrees with
`seq` outside `[start, end)` (same prefix before `start`, same suffix from
`end`, same length) and is of the form `seq[:start] ++ m ++ seq[end:]` with
`m ∈ Mismatches(seq[start:end], n)`; conversely every such composition is in
the result. -/
theorem claim_C6_mismatches_in_region (seq : List Char) (start stop n : Nat)
    (h1 : start < stop) (h2 : stop ≤ seq.length) (h3 : 1 ≤ n) (h4 : n ≤ stop - start) :
    (get_mismatches_in_region seq start stop n).isSome = true ∧
      (∀ x ∈ (get_mismatches_in_region seq start stop n).getD [],
        (x.length = seq.length ∧ x.take start = seq.take start ∧
          x.drop stop = seq.drop stop) ∧
        ∃ m ∈ (get_mismatch_seqs ((seq.drop start).take (stop - start)) n).getD [],
          x = seq.take start ++ m ++ seq.drop stop) ∧
      (∀ m ∈ (get_mismatch_seqs ((seq.drop start).take (stop - start)) n).getD [],
        seq.take start ++ m ++ seq.drop stop ∈
          (get_mismatches_in_region seq start stop n).getD []) := by
  have hreg : ((seq.drop start).take (stop - start)).length = stop - start := by
    rw [List.length_take, List.length_drop]
    exact inf_eq_left.mpr (by omega)
  have hs := get_mismatch_seqs_isSome ((seq.drop start).take (stop - start)) h3
  obtain ⟨ms, hms⟩ := Option.isSome_iff_exists.mp hs
  have hmir : get_mismatches_in_region seq start stop n
      = some (ms.map (fun mm_seq => seq.take start ++ mm_seq ++ seq.drop stop)) := by
    unfold get_mismatches_in_region
    rw [hms]
    rfl
  have hA : (seq.take start).length = start := by
    rw [List.length_take]
    exact inf_eq_left.mpr (by omega)
  refine ⟨by rw [hmir]; rfl, ?_, ?_⟩
  · intro x hx
    rw [hmir] at hx
    simp only [Option.getD_some] at hx
    obtain ⟨m, hm, rfl⟩ := List.mem_map.mp hx
    have hml : m.length = stop - start := by
      have hlm := (mem_get_mismatch_seqs hms hm).1
      rw [hreg] at hlm
      exact hlm
    refine ⟨⟨?_, ?_, ?_⟩, ?_⟩
    · rw [List.length_append, List.length_append, hA, hml, List.length_drop]
      omega
    · rw [List.append_assoc]
      exact List.take_left' hA
    · apply List.drop_left'
      rw [List.length_append, hA, hml]
      omega
    · rw [hms]
      refine ⟨m, ?_, rfl⟩
      simpa using hm
  · intro m hm
    rw [hms] at hm
    simp only [Option.getD_some] at hm
    rw [hmir]
    simp only [Option.getD_some]
    exact List.mem_map_of_mem _ hm

theorem claim_C6_witness :
    (['A', 'C', 'A', 'T', 'A', 'C', 'G', 'T'] : List Char).length
        = (['A', 'C', 'G', 'T', 'A', 'C', 'G', 'T'] : List Char).length ∧
      (['A', 'C', 'A', 'T', 'A', 'C', 'G', 'T'] : List Char).take 2
        = (['A', 'C', 'G', 'T', 'A', 'C', 'G', 'T'] : List Char).take 2 ∧
      (['A', 'C', 'A', 'T', 'A', 'C', 'G', 'T'] : List Char).drop 5
        = (['A', 'C', 'G', 'T', 'A', 'C', 'G', 'T'] : List Char).drop 5 :=
  ((claim_C6_mismatches_in_region ['A', 'C', 'G', 'T', 'A', 'C', 'G', 'T'] 2 5 1
      (by decide) (by decide) (by decide) (by decide)).2.1
    ['A', 'C', 'A', 'T', 'A', 'C', 'G', 'T'] (by decide)).1

theorem agreeCount_self (s : List Char) : agreeCount s s = s.length := by
  induction s with
  | nil => rfl
  | cons a as ih =>
    show (if a = a then 1 else 0) + agreeCount as as = as.length + 1
    rw [if_pos rfl, ih]
    omega

theorem diffCount_le_left : ∀ (u v : List Char), diffCount u v ≤ u.length := by
  intro u
  induction u with
  | nil => intro v; cases v <;> simp [diffCount]
  | cons a as ih =>
    intro v
    cases v with
    | nil => simp [diffCount]
    | cons b bs =>
      simp only [diffCount, List.length_cons]
      have := ih bs
      by_cases hab : a = b <;> simp [hab] <;> omega

theorem diffCount_append {u v : List Char} (h : u.length = v.length) :
    ∀ w w' : List Char, diffCount (u ++ w) (v ++ w') = diffCount u v + diffCount w w' := by
  induction u generalizing v with
  | nil =>
    intro w w'
    have hv : v = [] := List.length_eq_zero.mp h.symm
    subst hv
    simp [diffCount]
  | cons a us ih =>
    intro w w'
    cases v with
    | nil => simp at h
    | cons b vs =>
      have hlen : us.length = vs.length := by simpa using h
      rw [List.cons_append, List.cons_append]
      simp only [diffCount]
      rw [ih hlen]
      omega

theorem agreeCount_ge_sub : ∀ {y : List Char} (x z : List Char),
    y.length = z.length → agreeCount x y - diffCount y z ≤ agreeCount x z := by
  intro y
  induction y with
  | nil =>
    intro x z h
    cases x <;> simp [agreeCount]
  | cons b ys ih =>
    intro x z h
    cases z with
    | nil => simp at h
    | cons c zs =>
      have hlen : ys.length = zs.length := by simpa using h
      cases x with
      | nil => simp [agreeCount]
      | cons a xs =>
        simp only [agreeCount, diffCount]
        have hrec := ih xs zs hlen
        by_cases hbc : b = c
        · subst hbc
          simp only [if_pos rfl]
          by_cases hab : a = b <;> simp only [if_pos, if_neg, hab] <;> omega
        · simp only [if_neg hbc]
          have h1 : (if a = b then 1 else 0) ≤ 1 := by split <;> omega
          omega

theorem bundleComplement_length {y : List Char} {s e : Nat}
    (hse : s ≤ e) (he : e ≤ y.length) :
    (bundleComplement y s e).length = y.length := by
  unfold bundleComplement
  rw [List.length_append, List.length_append, List.length_take,
    forward_complement_length, List.length_take, List.length_drop, List.length_drop]
  have h1 : s ⊓ y.length = s := inf_eq_left.mpr (by omega)
  have h2 : (e - s) ⊓ (y.length - s) = e - s := inf_eq_left.mpr (by omega)
  rw [h1, h2]
  omega

theorem diffCount_bundleComplement (y : List Char) (s e : Nat)
    (hse : s ≤ e) (he : e ≤ y.length) :
    diffCount y (bundleComplement y s e) ≤ e - s := by
  have hmid : (y.drop s).take (e - s) ++ y.drop e = y.drop s := by
    have hdd : (y.drop s).drop (e - s) = y.drop e := by
      rw [List.drop_drop]
      congr 1
      omega
    rw [← hdd, List.take_append_drop]
  have hmlen : ((y.drop s).take (e - s)).length
      = (forward_complement ((y.drop s).take (e - s))).length := by
    rw [forward_complement_length]
  unfold bundleComplement
  rw [List.append_assoc]
  calc diffCount y
        (y.take s ++ (forward_complement ((y.drop s).take (e - s)) ++ y.drop e))
      = diffCount (y.take s ++ y.drop s)
        (y.take s ++ (forward_complement ((y.drop s).take (e - s)) ++ y.drop e)) := by
        rw [List.take_append_drop]
    _ = diffCount (y.drop s)
        (forward_complement ((y.drop s).take (e - s)) ++ y.drop e) :=
        diffCount_append_left _ _ _
    _ = diffCount ((y.drop s).take (e - s) ++ y.drop e)
        (forward_complement ((y.drop s).take (e - s)) ++ y.drop e) :=
        (congrArg (fun z => diffCount z
          (forward_complement ((y.drop s).take (e - s)) ++ y.drop e)) hmid).symm
    _ = diffCount ((y.drop s).take (e - s))
          (forward_complement ((y.drop s).take (e - s)))
        + diffCount (y.drop e) (y.drop e) := diffCount_append hmlen _ _
    _ = diffCount ((y.drop s).take (e - s))
          (forward_complement ((y.drop s).take (e - s))) := by
        simp [diffCount_self]
    _ ≤ ((y.drop s).take (e - s)).length := diffCount_le_left _ _
    _ ≤ e - s := by
        rw [List.length_take]
        exact inf_le_left

theorem agreeCount_foldl_bundles (seq : List Char) :
    ∀ (sel : List (Nat × Nat)) (y : List Char), y.length = seq.length →
      (∀ p ∈ sel, p.1 ≤ p.2 ∧ p.2 ≤ seq.length) →
      (sel.foldl (fun cur p => bundleComplement cur p.1 p.2) y).length = seq.length ∧
        agreeCount seq y - (sel.map (fun p => p.2 - p.1)).sum
          ≤ agreeCount seq (sel.foldl (fun cur p => bundleComplement cur p.1 p.2) y) := by
  intro sel
  induction sel with
  | nil =>
    intro y hy _
    exact ⟨hy, by simp⟩
  | cons p rest ih =>
    intro y hy hp
    have hp1 := hp p (by simp)
    have hey : p.2 ≤ y.length := by omega
    have hblen : (bundleComplement y p.1 p.2).length = seq.length := by
      rw [bundleComplement_length hp1.1 hey, hy]
    have hrest : ∀ q ∈ rest, q.1 ≤ q.2 ∧ q.2 ≤ seq.length := fun q hq => hp q (by simp [hq])
    obtain ⟨ihlen, ihagree⟩ := ih (bundleComplement y p.1 p.2) hblen hrest
    refine ⟨by simpa using ihlen, ?_⟩
    have hd : diffCount y (bundleComplement y p.1 p.2) ≤ p.2 - p.1 :=
      diffCount_bundleComplement y p.1 p.2 hp1.1 hey
    have htri : agreeCount seq y - diffCount y (bundleComplement y p.1 p.2)
        ≤ agreeCount seq (bundleComplement y p.1 p.2) :=
      agreeCount_ge_sub seq _ (by rw [hy, hblen])
    rw [List.foldl_cons, List.map_cons, List.sum_cons]
    omega

theorem bundlesFor_bounds {n bl : Nat} (hbl1 : 1 ≤ bl) :
    ∀ p ∈ bundlesFor n bl, p.1 ≤ p.2 ∧ p.2 ≤ n := by
  intro p hp
  unfold bundlesFor at hp
  by_cases hif : n < bl * 2
  · rw [if_pos hif] at hp
    simp at hp
    subst hp
    exact ⟨Nat.zero_le n, Nat.le_refl n⟩
  · rw [if_neg hif] at hp
    rcases List.mem_append.mp hp with h1 | h2
    · obtain ⟨start, hstart, rfl⟩ := List.mem_map.mp h1
      unfold rangeStep at hstart
      obtain ⟨k, hk, rfl⟩ := List.mem_map.mp hstart
      have hkb : k < (n - n % bl - bl + bl - 1) / bl := List.mem_range.mp hk
      refine ⟨by omega, ?_⟩
      have hd1 : ((n - n % bl - bl + bl - 1) / bl) * bl ≤ n - n % bl - bl + bl - 1 :=
        Nat.div_mul_le_self _ _
      have hd3 : (k + 1) * bl ≤ ((n - n % bl - bl + bl - 1) / bl) * bl :=
        Nat.mul_le_mul_right _ hkb
      have hd4 : n % bl < bl := Nat.mod_lt _ (by omega)
      have hd5 : bl * 2 ≤ n := by omega
      have hd6 : (k + 1) * bl = k * bl + bl := by ring
      omega
    · simp at h2
      subst h2
      exact ⟨by omega, Nat.le_refl n⟩

theorem sel_sum_cast {sel : List (Nat × Nat)} (h : ∀ p ∈ sel, p.1 ≤ p.2) :
    (sel.map (fun p => (p.2 : Int) - (p.1 : Int))).sum
      = (((sel.map (fun p => p.2 - p.1)).sum : Nat) : Int) := by
  induction sel with
  | nil => simp
  | cons p rest ih =>
    have hp := h p (by simp)
    have hrest := ih (fun q hq => h q (by simp [hq]))
    simp only [List.map_cons, List.sum_cons]
    rw [hrest]
    have hq : (p.2 : Int) - (p.1 : Int) = ((p.2 - p.1 : Nat) : Int) := by omega
    rw [hq]
    push_cast
    ring

/-- C5: every element of `ComplementBundles(seq)` has the length of `seq`
and agrees with `seq` on at least `⌈len(seq)/3⌉ = (len(seq)+2)/3` positions:
the guard skips every bundle selection whose un-complemented remainder
would be at most a third of the sequence, and the complement fold changes
only the selected spans. -/
theorem claim_C5_complement_bundles (seq : List Char) :
    ∀ x ∈ get_complementary_bundle_sets seq,
      x.length = seq.length ∧ (seq.length + 2) / 3 ≤ agreeCount seq x := by
  intro x hx
  unfold get_complementary_bundle_sets at hx
  rw [List.mem_flatMap] at hx
  obtain ⟨bl, hbl, hx⟩ := hx
  rw [List.mem_flatMap] at hx
  obtain ⟨nb, _, hx⟩ := hx
  rw [List.mem_filterMap] at hx
  obtain ⟨sel, hsel, hres⟩ := hx
  unfold bundleSelectionResult at hres
  by_cases hguard : 3 * ((seq.length : Int)
      - (sel.map (fun p => (p.2 : Int) - (p.1 : Int))).sum) ≤ (seq.length : Int)
  · rw [if_pos hguard] at hres
    simp at hres
  · rw [if_neg hguard] at hres
    injection hres with hres
    subst hres
    have hbl1 : 1 ≤ bl := by
      have hbl' : bl = 3 ∨ bl = 5 ∨ bl = 7 ∨ bl = 9 := by simpa using hbl
      omega
    obtain ⟨hsub, _⟩ := mem_combinations hsel
    have hbnds : ∀ p ∈ sel, p.1 ≤ p.2 ∧ p.2 ≤ seq.length := fun p hp =>
      bundlesFor_bounds hbl1 p (hsub.subset hp)
    obtain ⟨hlen, hagree⟩ := agreeCount_foldl_bundles seq sel seq rfl hbnds
    refine ⟨hlen, ?_⟩
    have hcast := sel_sum_cast (fun p hp => (hbnds p hp).1)
    rw [hcast] at hguard
    rw [agreeCount_self] at hagree
    omega

theorem claim_C5_witness :
    (['T', 'T', 'T', 'T', 'T', 'T', 'A', 'A', 'A', 'A', 'A', 'A'] : List Char).length
        = (['A', 'A', 'A', 'A', 'A', 'A', 'A', 'A', 'A', 'A', 'A', 'A'] : List Char).length ∧
      ((['A', 'A', 'A', 'A', 'A', 'A', 'A', 'A', 'A', 'A', 'A', 'A'] : List Char).length + 2) / 3
        ≤ agreeCount ['A', 'A', 'A', 'A', 'A', 'A', 'A', 'A', 'A', 'A', 'A', 'A']
            ['T', 'T', 'T', 'T', 'T', 'T', 'A', 'A', 'A', 'A', 'A', 'A'] :=
  claim_C5_complement_bundles
    ['A', 'A', 'A', 'A', 'A', 'A', 'A', 'A', 'A', 'A', 'A', 'A']
    ['T', 'T', 'T', 'T', 'T', 'T', 'A', 'A', 'A', 'A', 'A', 'A'] (by decide)
